import Mathlib

/-!
Verification of the incremental token-to-audio alignment engine of
`apps/expert/data/annotation/transcribe.py`.

The development shallowly embeds the functions the claims are about:

* `ensure_increasing_positions` (Timeline Repair, lines 1448-1478) over
  exact rationals; Python's `round(x, 2)` (round-half-to-even) is modelled
  by `round2`.
* the guard/control prefix of `perform_word_alignment` (lines 1049-1124):
  start/end-token checks, margin expansion, and the token-count-versus-
  frame-count retry,
* the confidence computation of `_transcribe_timestamped_efficient`
  (lines 914-955), with `torch.mean` of an empty tensor (a NaN) modelled
  by `Option.none`,
* the retroactive chunk-skip branch of `may_flush_segment`
  (lines 629-685),
* the disfluency-marker construction and insertion of
  `perform_word_alignment` (lines 1198-1255), with the external
  `scipy.signal.find_peaks` call abstracted into a per-token oracle,
* the final word-list assembly and special-token filter of
  `perform_word_alignment` (lines 1257-1287).

Floating point numbers are modelled by `ℚ` where the code only adds,
halves, rounds and compares decimal times, and by `ℝ` where `exp` is
involved.  Python mutation is replaced by explicit state passing, and the
self-recursion of `ensure_increasing_positions` by an explicit fuel
argument (`none` = no normal termination).
-/

namespace Transcribe

/-! ### Rounding: Python `round(x, ndigits)` (round-half-to-even) -/

/-- Round to the nearest integer, ties to even, as Python's `round` does. -/
def roundHalfEven {α : Type} [LinearOrderedField α] [FloorRing α] (x : α) : ℤ :=
  if Int.fract x < 1/2 then ⌊x⌋
  else if 1/2 < Int.fract x then ⌊x⌋ + 1
  else if ⌊x⌋ % 2 = 0 then ⌊x⌋ else ⌊x⌋ + 1

/-- Python `round(x, 2)` on exact decimals. -/
def round2 (x : ℚ) : ℚ := (roundHalfEven (100 * x) : ℚ) / 100

/-! ### Timeline Repair: `ensure_increasing_positions` (lines 1448-1478)

A segment (in the actual call, a word) carries a `start` and an `stop`
time in seconds.  The Python code mutates a list of dicts in place; here
one pass of the `for` loop is split into the per-element steps
`adjustStart` (lines 1453-1461, overlap resolution, possibly modifying
the previous element's end) and `adjustEnd` (lines 1462-1463, the
minimum-duration floor), threaded through `onePassAux`.  The `assert i > 0`
of line 1454 can only fail for the first element, handled in `onePass`.
The trailing rounding-and-assertion loop of lines 1468-1476 is
`finalCheckAux`; a failing assertion yields `none`.  The tail recursion on
`has_modified_backward` is driven by explicit fuel. -/

structure Seg where
  start : ℚ
  stop : ℚ
deriving DecidableEq, Repr

/-- Lines 1453-1461: resolve an overlap between the previous segment `p`
and the current segment `seg`; returns the `has_modified_backward` flag
for this step and the updated pair. -/
def adjustStart (minDur : ℚ) (p seg : Seg) : Bool × Seg × Seg :=
  if seg.start < p.stop then
    let ns := round2 ((p.stop + seg.start) / 2)
    if ns < p.start + minDur then
      (false, p, ⟨p.stop, seg.stop⟩)
    else
      (true, ⟨p.start, ns⟩, ⟨ns, seg.stop⟩)
  else (false, p, seg)

/-- Lines 1462-1463: enforce the minimum duration on a segment's end. -/
def adjustEnd (minDur : ℚ) (seg : Seg) : Seg :=
  if seg.stop ≤ seg.start + minDur then ⟨seg.start, seg.start + minDur⟩ else seg

/-- One pass of the `for` loop over the elements after the first, carrying
the previous (already processed) segment `p`.  Returns the accumulated
`has_modified_backward` flag and the processed list (including `p`). -/
def onePassAux (minDur : ℚ) : Seg → List Seg → Bool × List Seg
  | p, [] => (false, [p])
  | p, seg :: rest =>
    let r1 := adjustStart minDur p seg
    let seg2 := adjustEnd minDur r1.2.2
    let r2 := onePassAux minDur seg2 rest
    (r1.1 || r2.1, r1.2.1 :: r2.2)

/-- One full pass of the loop of lines 1450-1464.  For the first element
`previous_end` is `0`; an overlap there trips `assert i > 0` (`none`). -/
def onePass (minDur : ℚ) : List Seg → Option (Bool × List Seg)
  | [] => some (false, [])
  | seg :: rest =>
    if seg.start < 0 then none
    else some (onePassAux minDur (adjustEnd minDur seg) rest)

/-- Lines 1468-1476: round all boundaries to two decimals and check the
final invariant; a failing `assert` yields `none`. -/
def finalCheckAux (prevEnd : ℚ) : List Seg → Option (List Seg)
  | [] => some []
  | seg :: rest =>
    let s := round2 seg.start
    let e := round2 seg.stop
    if prevEnd ≤ s ∧ s < e then
      match finalCheckAux e rest with
      | some out => some (⟨s, e⟩ :: out)
      | none => none
    else none

/-- `ensure_increasing_positions(segments, min_duration)` with explicit
fuel for the `has_modified_backward` tail recursion of lines 1465-1466;
`none` means an assertion failure or fuel exhaustion. -/
def ensure_increasing_positions (fuel : ℕ) (segments : List Seg) (minDur : ℚ) :
    Option (List Seg) :=
  match fuel with
  | 0 => none
  | fuel + 1 =>
    match onePass minDur segments with
    | none => none
    | some (true, segs) => ensure_increasing_positions fuel segs minDur
    | some (false, segs) => finalCheckAux 0 segs

/-! #### C1: the final invariant -/

/-- The invariant asserted by lines 1472-1475: every start is at or after
the previous end (initially `0`), and every end strictly after its start. -/
def RepairedFrom (pe : ℚ) : List Seg → Prop
  | [] => True
  | s :: rest => pe ≤ s.start ∧ s.start < s.stop ∧ RepairedFrom s.stop rest

/-! #### C3: idempotence of the repair pass -/

/-- Invariant after a backward-stable pass: starts chase previous ends and
every segment is at least `minDur` long (before rounding). -/
def ChainFloor (d : ℚ) : ℚ → List Seg → Prop
  | _, [] => True
  | pe, s :: rest => pe ≤ s.start ∧ s.start + d ≤ s.stop ∧ ChainFloor d s.stop rest

/-- Invariant of a finished result, for an even-grid minimum duration:
ordered, strictly increasing, at least `d` long, on the `1/100` grid. -/
def GoodOut (d : ℚ) : ℚ → List Seg → Prop
  | _, [] => True
  | pe, s :: rest => pe ≤ s.start ∧ s.start < s.stop ∧ s.start + d ≤ s.stop ∧
      (∃ n : ℤ, s.start = (n : ℚ) / 100) ∧ (∃ m : ℤ, s.stop = (m : ℚ) / 100) ∧
      GoodOut d s.stop rest

/-! ### Alignment guards and the token/frame retry
(`perform_word_alignment`, lines 1049-1124, and the call-site tail of
`align_last_segment`, lines 410-437)

The guard prefix of `perform_word_alignment` only looks at the token list,
the refinement margin and the two bounding timestamp tokens; the attention
tensors are shape-checked against the token count and truncated in lock
step with the tokens, so the control flow is a function of the tokens.
`AlignOutcome.fatal` stands for a raised `AssertionError`/`RuntimeError`,
`AlignOutcome.empty` for the `return []` of line 1064, `retry` for the
self-call of lines 1107-1124 (always with `unfinished_decoding=True`), and
`proceed` for falling through to the DTW with the final window. -/

/-- `whisper.audio.N_FRAMES`. -/
def NFrames : ℕ := 3000


inductive AlignOutcome where
  | fatal : AlignOutcome
  | empty : AlignOutcome
  | retry (newTokens : List ℤ) (unfinished : Bool) : AlignOutcome
  | proceed (startTok endTok : ℤ) (unfinished : Bool) : AlignOutcome
deriving DecidableEq, Repr

/-- Line 1052: `start_token = tokens[0] - tokenizer.timestamp_begin`. -/
def startTokOf (tb : ℤ) (tokens : List ℤ) : ℤ := tokens.headD 0 - tb

/-- Line 1053: `end_token = tokens[-1] - tokenizer.timestamp_begin`. -/
def endTok0Of (tb : ℤ) (tokens : List ℤ) : ℤ := tokens.getLastD 0 - tb

/-- Lines 1060-1062: a negative end timestamp is replaced by
`N_FRAMES // 2` (the "Whisper stuck as a language model" case). -/
def endTokOf (tb : ℤ) (tokens : List ℤ) : ℤ :=
  if endTok0Of tb tokens < 0 then (NFrames : ℤ) / 2 else endTok0Of tb tokens

/-- Lines 1067-1069: margin expansion, clamped to the feature window. -/
def winStart (tb : ℤ) (refine : ℕ) (tokens : List ℤ) : ℤ :=
  if 0 < refine then max (startTokOf tb tokens - refine) 0 else startTokOf tb tokens


def winEnd (tb : ℤ) (refine : ℕ) (tokens : List ℤ) : ℤ :=
  if 0 < refine then min (endTokOf tb tokens + refine) ((NFrames : ℤ) / 2)
  else endTokOf tb tokens

/-- The guard/control prefix of `perform_word_alignment`
(lines 1049-1124). -/
def perform_word_alignment_control (tb : ℤ) (refine : ℕ) (tokens : List ℤ)
    (unfinished : Bool) : AlignOutcome :=
  if tokens.length ≤ 1 then .fatal
  else if startTokOf tb tokens < 0 then .fatal
  else if endTokOf tb tokens = startTokOf tb tokens ∧ refine = 0 then .empty
  else if winEnd tb refine tokens ≤ winStart tb refine tokens then .fatal
  else if (winEnd tb refine tokens - winStart tb refine tokens : ℤ) < tokens.length
  then
    .retry (tokens.take (winEnd tb refine tokens - winStart tb refine tokens - 1).toNat
      ++ [tokens.getLastD 0]) true
  else .proceed (winStart tb refine tokens) (winEnd tb refine tokens) unfinished

/-- Lines 410-437 of `align_last_segment`, on the token list as it stands
after the unfinished-decoding recovery of lines 371-408.  Line 411 reads
`tokens[-1]` unguarded, so an empty list is an `IndexError`.  When the
last token is a timestamp (`end_token >= tokenizer.timestamp_begin`), the
first token must be one too (the `assert` of line 414), and if the end
token is at or before the start token it is re-predicted from the last
decoding step's log-probabilities, constrained to ids strictly after the
start: `last_logprobs[start_token + 1:].argmax() + start_token + 1`
(lines 416-420).  The argmax index is decoder data outside the model and
enters as the oracle `amx : ℕ`; structurally the re-derived token is
`tokens[0] + 1 + amx`, strictly after the start.  Then a list of at most
one token yields `ws = []` (lines 422-424) and anything longer goes to
`perform_word_alignment` (lines 426-437). -/
def align_last_segment_words (tb : ℤ) (refine : ℕ) (amx : ℕ) (tokens : List ℤ)
    (unfinished : Bool) : AlignOutcome :=
  if tokens.length = 0 then .fatal
  else if tb ≤ tokens.getLastD 0 ∧ tokens.headD 0 < tb then .fatal
  else if tb ≤ tokens.getLastD 0 ∧ tokens.getLastD 0 ≤ tokens.headD 0 then
    (if (tokens.dropLast ++ [tokens.headD 0 + 1 + (amx : ℤ)]).length ≤ 1 then .empty
     else perform_word_alignment_control tb refine
       (tokens.dropLast ++ [tokens.headD 0 + 1 + (amx : ℤ)]) unfinished)
  else
    (if tokens.length ≤ 1 then .empty
     else perform_word_alignment_control tb refine tokens unfinished)

/-! ### Segment Filter: the retroactive skip of `may_flush_segment`
(lines 625-685)

Only the state the skip branch touches is modelled: the list of
per-segment token lists (whose final element is the in-progress scratch
buffer), the list of timestamped word segments, and the running
`index_begin_30sec_chunck` counter.  The payload of a timestamped segment
is irrelevant to the branch and is left as a type parameter. -/

structure FlushState (α : Type) where
  segmentTokens : List (List ℤ)
  timestampedWordSegments : List α
  indexBegin : ℤ

/-- Lines 631-635 and 673-677: a chunk is skipped when its no-speech
probability exceeds the threshold, unless its average log-probability
beats the log-probability threshold. -/
def shouldSkipOf (noSpeechProb : ℚ) (noSpeechThreshold : Option ℚ)
    (avgLogprob : ℚ) (logprobThreshold : Option ℚ) : Bool :=
  let s0 : Bool := match noSpeechThreshold with
    | none => false
    | some t => decide (noSpeechProb > t)
  match logprobThreshold with
  | some lt => if avgLogprob > lt then false else s0
  | none => s0

/-- Lines 683-685: rewind the counter and truncate both segment lists
back to the index recorded before the chunk began (keeping the trailing
scratch buffer of `segment_tokens`). -/
def skip_chunk {α : Type} (st : FlushState α) (iStart : ℕ) : FlushState α :=
  { segmentTokens := st.segmentTokens.take iStart ++ [st.segmentTokens.getLastD []],
    timestampedWordSegments := st.timestampedWordSegments.take iStart,
    indexBegin := st.indexBegin - ((st.segmentTokens.length : ℤ) - 1 - iStart) }

/-- The skip decision applied to the state (lines 679-685). -/
def may_flush_filter {α : Type} (st : FlushState α) (iStart : ℕ) (nsp : ℚ)
    (nst : Option ℚ) (alp : ℚ) (lpt : Option ℚ) : FlushState α :=
  if shouldSkipOf nsp nst alp lpt then skip_chunk st iStart else st

/-! ### Final word assembly of `perform_word_alignment` (lines 1257-1287)

After the disfluency stage, the bounding timestamp pseudo-words are
stripped (`words[1:]`, and also the trailing one unless decoding was
unfinished), times are shifted by the chunk's absolute start and rounded,
and any residual special-token word (text starting with `"<|"`) is
filtered out of the returned list. -/

/-- Python's `str.startswith`, on the character lists of the strings. -/
def strStartsWith (s p : String) : Bool := s.data.take p.data.length == p.data


structure TimedWord where
  text : String
  start : ℚ
  stop : ℚ
  tokens : List String
  tokensIndices : List ℤ
deriving DecidableEq, Repr

/-- Lines 1257-1287: boundary-time fixes for zero margin, slicing off the
bounding timestamp entries, and the final comprehension with its
`not word.startswith("<|")` filter.  (`List.set` out of range is a no-op,
whereas numpy would raise for fewer than two entries; the chunks reaching
this point always carry their two bounding timestamp words.) -/
def finalize_words (refine : ℕ) (unfinished : Bool) (startTime : ℚ)
    (words : List String) (wordTokens : List (List String))
    (wordTokensIndices : List (List ℤ)) (beginTimes endTimes : List ℚ) :
    List TimedWord :=
  let bt := if refine = 0 then beginTimes.set 1 (beginTimes.getD 0 0) else beginTimes
  let et := if refine = 0 then
      endTimes.set (endTimes.length - 2) (endTimes.getD (endTimes.length - 1) 0)
    else endTimes
  let ws := if unfinished then words.drop 1 else (words.drop 1).dropLast
  let bs := if unfinished then bt.drop 1 else (bt.drop 1).dropLast
  let es := if unfinished then et.drop 1 else (et.drop 1).dropLast
  let ts := if unfinished then wordTokens.drop 1 else (wordTokens.drop 1).dropLast
  let tis := if unfinished then wordTokensIndices.drop 1
    else (wordTokensIndices.drop 1).dropLast
  ((((ws.zip bs).zip es).zip ts).zip tis).filterMap fun x =>
    if strStartsWith x.1.1.1.1 "<|" then none
    else some ⟨x.1.1.1.1, round2 (x.1.1.1.2 + startTime),
      round2 (x.1.1.2 + startTime), x.1.2, x.2⟩

/-! ### Confidence Scorer (`_transcribe_timestamped_efficient`,
lines 914-955, and `hook_output_logits`, lines 800-807)

Per-word log-probability slices are cut out of the segment's logprob list
by token counts; with `include_punctuation_in_confidence=False`, trailing
punctuation tokens of a word are dropped first (`while len(tokens) > 1 and
tokens[-1][-1] in _punctuation`).  A confidence is
`round(exp(mean(slice)), 3)`.  `torch.mean` of an empty tensor is NaN;
an empty slice is therefore modelled as `Option.none`. -/

/-- `_punctuation` (lines 1368-1370): `string.punctuation` without `-`
and `'`, plus CJK punctuation. -/
def punctChars : List Char :=
  "!\"#$%&()*+,./:;<=>?@[\\]^_`\x7b|\x7d~。，！？：”、…".data

/-- `tokens[-1][-1] in _punctuation` (line 940): the last character of the
last token of a word. -/
def lastCharIsPunct (s : String) : Bool :=
  match s.data.getLast? with
  | none => false
  | some c => punctChars.contains c

/-- The trailing-punctuation trim loop of lines 940-941, with fuel. -/
def trimPunctAux : ℕ → List String → List String
  | 0, ts => ts
  | n + 1, ts =>
    if 1 < ts.length ∧ lastCharIsPunct (ts.getLastD "") then
      trimPunctAux n ts.dropLast
    else ts


def trimPunct (ts : List String) : List String := trimPunctAux ts.length ts

/-- Python `round(x, 3)`. -/
noncomputable def round3 (x : ℝ) : ℝ := (roundHalfEven (1000 * x) : ℝ) / 1000


noncomputable def mean (l : List ℝ) : ℝ := l.sum / l.length

/-- `round(tensor.mean().exp().item(), 3)`. -/
noncomputable def confidence (l : List ℝ) : ℝ := round3 (Real.exp (mean l))

/-- NaN-aware confidence: `torch.mean` of an empty tensor is NaN, which
poisons `exp` and `round`. -/
noncomputable def confidenceOpt : List ℝ → Option ℝ
  | [] => none
  | l => some (confidence l)

/-- The per-word loop of lines 927-947: cut `logprobs[i_start:i_end]` per
word, optionally trimming trailing punctuation, collecting per-word
confidences and the retained (no-punctuation) log-probabilities.  The
out-of-bound `assert` of lines 933-935 yields `none`. -/
noncomputable def confLoop (ip : Bool) (logprobs : List ℝ) :
    ℕ → List (List String) → Option (List (Option ℝ) × List ℝ)
  | _, [] => some ([], [])
  | iStart, tokens :: rest =>
    if logprobs.length < iStart + tokens.length then none
    else
      let keep := if ip then tokens.length else (trimPunct tokens).length
      let sel := (logprobs.drop iStart).take keep
      match confLoop ip logprobs (iStart + tokens.length) rest with
      | none => none
      | some (cs, np) => some (confidenceOpt sel :: cs, sel ++ np)

/-- Lines 914-955: word confidences and the segment confidence.  With
punctuation included, the segment confidence is taken over the whole
logprob list (line 924); otherwise over the concatenation of the retained
per-word slices (lines 953-955). -/
noncomputable def compute_confidences (ip : Bool) (wordTokens : List (List String))
    (logprobs : List ℝ) : Option (List (Option ℝ) × Option ℝ) :=
  match confLoop ip logprobs 0 wordTokens with
  | none => none
  | some (cs, np) => some (cs, if ip then confidenceOpt logprobs else confidenceOpt np)

/-- Token offset of word `i`: the summed token counts of earlier words. -/
def offsetOf (wt : List (List String)) (i : ℕ) : ℕ :=
  ((wt.take i).map List.length).sum

/-- The slice of log-probabilities the code attributes to word `i`. -/
def wordSelection (ip : Bool) (wt : List (List String)) (lps : List ℝ) (i : ℕ) :
    List ℝ :=
  (lps.drop (offsetOf wt i)).take
    (if ip then (wt.getD i []).length else (trimPunct (wt.getD i [])).length)

/-- All log-probabilities retained across the segment's words. -/
def retainedConcat (ip : Bool) (wt : List (List String)) (lps : List ℝ) :
    List ℝ :=
  ((List.range wt.length).map (wordSelection ip wt lps)).flatten

/-! Supporting facts for C7's intended invariant: on any nonempty slice of
log-softmax outputs, the computed confidence does lie in `[0, 1]`. -/

/-- `F.log_softmax` of line 806, on a list of logits. -/
noncomputable def logSoftmax (l : List ℝ) : List ℝ :=
  l.map (fun x => x - Real.log ((l.map Real.exp).sum))

/-! ### Disfluency Detector (`perform_word_alignment`, lines 1190-1255)

`jumps` is the per-token frame-boundary array derived from the DTW path
(`np.diff(alignment.index1s)` indices into `index2s`, one entry per token
plus a trailing bound).  The external `scipy.signal.find_peaks` call of
lines 1203-1208 is abstracted into a per-token oracle
`peaks : ℕ → Option ℕ`: `some lft` means more than one qualifying peak was
found and `lft` is the last peak's left boundary (`left[-1]`, an offset
relative to the token's begin frame); `none` means at most one peak.
`punct tok` stands for `tokenizer.decode_with_timestamps([tok]) in
_punctuation`. -/

/-- `AUDIO_TIME_PER_TOKEN` (line 36): `0.02` seconds per frame. -/
def audioTimePerToken : ℚ := 1 / 50

/-- Python dict assignment `disfluences[k] = v` on an association list. -/
def upsertD (k : ℕ) (v : ℕ × ℕ) : List (ℕ × ℕ × ℕ) → List (ℕ × ℕ × ℕ)
  | [] => [(k, v.1, v.2)]
  | (k', v') :: rest =>
    if k' = k then (k, v.1, v.2) :: rest else (k', v') :: upsertD k v rest

/-- The detection loop of lines 1199-1227: walk `zip(tokens, jumps[:-1],
jumps[1:])`; where the oracle reports several peaks, revise the token's
start to `left[-1] + begin` and record a disfluency entry — keyed by the
token itself (spanning `(begin, new_begin)`) unless the token is
punctuation, in which case keyed by the next token (spanning
`(begin, end)`).  Returns `jumps_start` and the `disfluences` dict. -/
def detectAux (peaks : ℕ → Option ℕ) (punct : ℤ → Bool) :
    ℕ → List ℤ → List ℕ → List (ℕ × ℕ × ℕ) → List ℕ × List (ℕ × ℕ × ℕ)
  | _, [], js, dis => (js, dis)
  | _, _ :: _, [], dis => ([], dis)
  | _, _ :: _, [b], dis => ([b], dis)
  | i, tok :: toks, b :: e :: js, dis =>
    match peaks i with
    | none =>
      let r := detectAux peaks punct (i + 1) toks (e :: js) dis
      (b :: r.1, r.2)
    | some lft =>
      let nb := lft + b
      let dis' := if nb ≠ b then
          (if punct tok then upsertD (i + 1) (b, e) dis else upsertD i (b, nb) dis)
        else dis
      let r := detectAux peaks punct (i + 1) toks (e :: js) dis'
      (nb :: r.1, r.2)


def detect_disfluencies_pass (peaks : ℕ → Option ℕ) (punct : ℤ → Bool)
    (tokens : List ℤ) (jumps : List ℕ) : List ℕ × List (ℕ × ℕ × ℕ) :=
  detectAux peaks punct 0 tokens jumps []

/-- Line 1230-1231: `word_boundaries = pad(cumsum(token counts), (1,0))`. -/
def word_boundaries (wordTokens : List (List String)) : List ℕ :=
  List.scanl (fun a t => a + t.length) 0 wordTokens

/-- Lines 1232 and 1235: `begin_times = jumps_start[word_boundaries[:-1]]`
scaled to seconds. -/
def begin_times (jumpsStart : List ℕ) (wordTokens : List (List String)) :
    List ℚ :=
  (word_boundaries wordTokens).dropLast.map
    (fun b => (jumpsStart.getD b 0 : ℚ) * audioTimePerToken)

/-- Python's substring test `sub in s` on character lists. -/
def listHasSub (sub l : List Char) : Bool :=
  (List.range (l.length + 1)).any (fun i => (l.drop i).take sub.length == sub)

/-- `w in _punctuation` for a decoded token string (substring semantics). -/
def strInPunct (s : String) : Bool := listHasSub s.data punctChars

/-- Lines 1089-1091: `0 if len(w) == 1 or w[-1] not in _punctuation
else 1`. -/
def numPunct (w : List String) : ℕ :=
  if w.length = 1 ∨ strInPunct (w.getLastD "") = false then 0 else 1

/-- Lines 1089-1093, including the `include_punctuation_in_timing`
overwrite of all but the final two entries. -/
def numPunctList (ipt : Bool) (wordTokens : List (List String)) : List ℕ :=
  let base := wordTokens.map numPunct
  if ipt then List.replicate (base.length - 2) 0 ++ base.drop (base.length - 2)
  else base

/-- Lines 1233 and 1236:
`end_times = jumps[word_boundaries[1:] - num_punctuations_per_tokens]`
scaled to seconds. -/
def end_times (jumps : List ℕ) (wordTokens : List (List String)) (ipt : Bool) :
    List ℚ :=
  List.zipWith (fun b np => (jumps.getD (b - np) 0 : ℚ) * audioTimePerToken)
    ((word_boundaries wordTokens).drop 1) (numPunctList ipt wordTokens)

/-- The collection loop of lines 1239-1248 over `word_tokens[:-1]`:
a marker `(i_word, begin·Δ, end·Δ)` is collected when the word's first
token index is a key of `disfluences` and `i_word > 0`. -/
def to_be_added_aux (dis : List (ℕ × ℕ × ℕ)) :
    ℕ → ℕ → List (List String) → List (ℕ × ℚ × ℚ)
  | _, _, [] => []
  | iWord, iStart, toks :: rest =>
    let r := to_be_added_aux dis (iWord + 1) (iStart + toks.length) rest
    match List.lookup iStart dis with
    | some be =>
      if 0 < iWord then
        (iWord, (be.1 : ℚ) * audioTimePerToken, (be.2 : ℚ) * audioTimePerToken) :: r
      else r
    | none => r


def to_be_added (dis : List (ℕ × ℕ × ℕ)) (wordTokens : List (List String)) :
    List (ℕ × ℚ × ℚ) :=
  to_be_added_aux dis 0 0 wordTokens.dropLast

/-- `DISFLUENCY_MARK` (line 40). -/
def disfluencyMark : String := "[*]"


structure WordTimes where
  words : List String
  wordTokens : List (List String)
  wordTokensIndices : List (List ℤ)
  beginTimes : List ℚ
  endTimes : List ℚ
deriving DecidableEq, Repr

/-- The insertion loop of lines 1249-1255: insert the collected markers
from the end, each immediately before its word index, into all five
parallel lists. -/
def insert_markers (ms : List (ℕ × ℚ × ℚ)) (st : WordTimes) : WordTimes :=
  ms.reverse.foldl (fun acc m =>
    { words := acc.words.insertIdx m.1 disfluencyMark,
      wordTokens := acc.wordTokens.insertIdx m.1 [],
      wordTokensIndices := acc.wordTokensIndices.insertIdx m.1 [],
      beginTimes := acc.beginTimes.insertIdx m.1 m.2.1,
      endTimes := acc.endTimes.insertIdx m.1 m.2.2 }) st

/-- What a surviving `disfluences` entry can look like: it stems from a
token `j` with several attention peaks whose revised start differs from
its original start; a non-punctuation token records `(j, begin, revised)`,
a punctuation token records `(j+1, begin, end)`. -/
def EntrySpec (peaks : ℕ → Option ℕ) (punct : ℤ → Bool) (tokens : List ℤ)
    (jumps : List ℕ) (x : ℕ × ℕ × ℕ) : Prop :=
  ∃ j lft, j < tokens.length ∧ peaks j = some lft ∧
    lft + jumps.getD j 0 ≠ jumps.getD j 0 ∧
    ((punct (tokens.getD j 0) = false ∧
        x = (j, jumps.getD j 0, lft + jumps.getD j 0)) ∨
      (punct (tokens.getD j 0) = true ∧
        x = (j + 1, jumps.getD j 0, jumps.getD (j + 1) 0)))


theorem roundHalfEven_intCast {α : Type} [LinearOrderedField α] [FloorRing α]
    (n : ℤ) : roundHalfEven (n : α) = n := by
  simp [roundHalfEven, Int.fract_intCast]


theorem floor_le_roundHalfEven {α : Type} [LinearOrderedField α] [FloorRing α]
    (x : α) : ⌊x⌋ ≤ roundHalfEven x := by
  unfold roundHalfEven
  split_ifs <;> omega


theorem roundHalfEven_le_floor_add_one {α : Type} [LinearOrderedField α] [FloorRing α]
    (x : α) : roundHalfEven x ≤ ⌊x⌋ + 1 := by
  unfold roundHalfEven
  split_ifs <;> omega


theorem roundHalfEven_mono {α : Type} [LinearOrderedField α] [FloorRing α]
    {x y : α} (h : x ≤ y) : roundHalfEven x ≤ roundHalfEven y := by
  have hf : ⌊x⌋ ≤ ⌊y⌋ := Int.floor_le_floor h
  rcases eq_or_lt_of_le hf with heq | hlt
  · have hfr : Int.fract x ≤ Int.fract y := by
      unfold Int.fract
      rw [heq] at *
      linarith
    unfold roundHalfEven
    rw [heq]
    split_ifs <;> first | omega | linarith
  · calc roundHalfEven x ≤ ⌊x⌋ + 1 := roundHalfEven_le_floor_add_one x
    _ ≤ ⌊y⌋ := by omega
    _ ≤ roundHalfEven y := floor_le_roundHalfEven y


theorem roundHalfEven_add_int_mul_two {α : Type} [LinearOrderedField α] [FloorRing α]
    (x : α) (k : ℤ) : roundHalfEven (x + (2 * k : ℤ)) = roundHalfEven x + 2 * k := by
  unfold roundHalfEven
  rw [Int.fract_add_int, Int.floor_add_int]
  have hmod : (⌊x⌋ + 2 * k) % 2 = ⌊x⌋ % 2 := by omega
  rw [hmod]
  split_ifs <;> ring

/-- `round2` fixes exact multiples of `1/100`. -/
theorem round2_grid (n : ℤ) : round2 ((n : ℚ) / 100) = (n : ℚ) / 100 := by
  have h : (100 : ℚ) * ((n : ℚ) / 100) = (n : ℚ) := by ring
  rw [round2, h, roundHalfEven_intCast]


theorem round2_mono {x y : ℚ} (h : x ≤ y) : round2 x ≤ round2 y := by
  have := roundHalfEven_mono (α := ℚ) (x := 100 * x) (y := 100 * y) (by linarith)
  unfold round2
  have hcast : (roundHalfEven (100 * x) : ℚ) ≤ (roundHalfEven (100 * y) : ℚ) := by
    exact_mod_cast this
  linarith

/-- `round2` commutes with translation by a multiple of `1/50`. -/
theorem round2_add_even_grid (x : ℚ) (k : ℤ) :
    round2 (x + (k : ℚ) / 50) = round2 x + (k : ℚ) / 50 := by
  have h : (100 : ℚ) * (x + (k : ℚ) / 50) = 100 * x + ((2 * k : ℤ) : ℚ) := by
    push_cast; ring
  rw [round2, h, roundHalfEven_add_int_mul_two, round2]
  push_cast
  ring


theorem round2_is_grid (x : ℚ) : ∃ n : ℤ, round2 x = (n : ℚ) / 100 :=
  ⟨roundHalfEven (100 * x), rfl⟩


theorem finalCheckAux_repaired {pe : ℚ} {segs out : List Seg}
    (h : finalCheckAux pe segs = some out) : RepairedFrom pe out := by
  induction segs generalizing pe out with
  | nil =>
    simp only [finalCheckAux, Option.some.injEq] at h
    subst h; trivial
  | cons seg rest ih =>
    simp only [finalCheckAux] at h
    split_ifs at h with hcond
    rcases hrec : finalCheckAux (round2 seg.stop) rest with _ | out'
    · rw [hrec] at h; exact absurd h (by simp)
    · rw [hrec] at h
      simp only [Option.some.injEq] at h
      subst h
      exact ⟨hcond.1, hcond.2, ih hrec⟩


theorem RepairedFrom.chain {pe : ℚ} {l : List Seg} (h : RepairedFrom pe l) :
    List.Chain' (fun a b => a.stop ≤ b.start) l := by
  induction l generalizing pe with
  | nil => simp
  | cons s rest ih =>
    obtain ⟨h1, h2, h3⟩ := h
    refine List.chain'_cons'.mpr ⟨?_, ih h3⟩
    intro b hb
    match rest, hb with
    | b :: rest', rfl => exact h3.1


theorem RepairedFrom.each_pos {pe : ℚ} {l : List Seg} (h : RepairedFrom pe l) :
    ∀ s ∈ l, s.start < s.stop := by
  induction l generalizing pe with
  | nil => simp
  | cons s rest ih =>
    obtain ⟨h1, h2, h3⟩ := h
    intro x hx
    rcases List.mem_cons.mp hx with h4 | h5
    · subst h4; exact h2
    · exact ih h3 x h5

/-- A normal result always comes out of a backward-stable pass followed by
the final rounding-and-check loop. -/
theorem ensure_some_exists {fuel : ℕ} {segs r : List Seg} {d : ℚ}
    (h : ensure_increasing_positions fuel segs d = some r) :
    ∃ mid out, onePass d mid = some (false, out) ∧ finalCheckAux 0 out = some r := by
  induction fuel generalizing segs with
  | zero => exact absurd h (by simp [ensure_increasing_positions])
  | succ n ih =>
    rw [ensure_increasing_positions] at h
    rcases hop : onePass d segs with _ | ⟨flag, segs'⟩
    · rw [hop] at h; exact absurd h (by simp)
    · rw [hop] at h
      match flag with
      | true => exact ih h
      | false => exact ⟨segs, segs', hop, h⟩

/-- C1: whenever Timeline Repair terminates normally, adjacent segments do
not overlap (`end ≤ next start`) and every segment has strictly positive
duration. -/
theorem timeline_repair_invariant {fuel : ℕ} {segs r : List Seg} {d : ℚ}
    (h : ensure_increasing_positions fuel segs d = some r) :
    List.Chain' (fun a b => a.stop ≤ b.start) r ∧ ∀ s ∈ r, s.start < s.stop := by
  obtain ⟨mid, out, hop, hfc⟩ := ensure_some_exists h
  have hr := finalCheckAux_repaired hfc
  exact ⟨hr.chain, hr.each_pos⟩

/-- Concrete evaluation of a repair run, reused by several witnesses. -/
theorem eval_ensure_simple :
    ensure_increasing_positions 1 [Seg.mk 0 1] 0 = some [Seg.mk 0 1] := by
  norm_num [ensure_increasing_positions, onePass, onePassAux, adjustEnd,
    finalCheckAux, round2, roundHalfEven, Int.fract]

/-- Witness for C1 at a concrete input. -/
theorem timeline_repair_invariant_witness :
    List.Chain' (fun a b => a.stop ≤ b.start) [Seg.mk 0 1] ∧
      ∀ s ∈ [Seg.mk 0 1], s.start < s.stop :=
  @timeline_repair_invariant 1 [Seg.mk 0 1] [Seg.mk 0 1] 0 eval_ensure_simple

/-! #### C2: the overlap-resolution step -/

/-- C2 (amended): when a segment's start precedes the previous segment's
end, both boundaries move to the midpoint of the previous end and the
current start, rounded to two decimals, provided this leaves the previous
segment no shorter than the minimum-duration floor; otherwise the later
start snaps to the previous end and the previous end is unchanged. -/
theorem overlap_resolution {d : ℚ} {p seg : Seg} (h : seg.start < p.stop) :
    (round2 ((p.stop + seg.start) / 2) < p.start + d →
      adjustStart d p seg = (false, p, ⟨p.stop, seg.stop⟩)) ∧
    (p.start + d ≤ round2 ((p.stop + seg.start) / 2) →
      adjustStart d p seg =
        (true, ⟨p.start, round2 ((p.stop + seg.start) / 2)⟩,
          ⟨round2 ((p.stop + seg.start) / 2), seg.stop⟩)) := by
  constructor <;> intro h2 <;> simp only [adjustStart, if_pos h]
  · rw [if_pos h2]
  · rw [if_neg (not_lt.mpr h2)]

/-- Witness for C2 at a concrete overlapping pair. -/
theorem overlap_resolution_witness :
    adjustStart 0 (Seg.mk 0 (1/10)) (Seg.mk (33/500) (1/5)) =
      (true, ⟨0, round2 ((1/10 + 33/500) / 2)⟩,
        ⟨round2 ((1/10 + 33/500) / 2), 1/5⟩) :=
  (@overlap_resolution 0 (Seg.mk 0 (1/10)) (Seg.mk (33/500) (1/5))
      (by norm_num)).2
    (by norm_num [round2, roundHalfEven, Int.fract])

/-- Counterexample to C2 as stated: the boundaries do not move to the exact
midpoint; they move to the midpoint rounded to two decimal places
(`0.083` becomes `0.08`). -/
theorem overlap_resolution_counterexample :
    (Seg.mk (33/500) (1/5)).start < (Seg.mk 0 (1/10) : Seg).stop ∧
    (adjustStart 0 (Seg.mk 0 (1/10)) (Seg.mk (33/500) (1/5))).2.2.start = 2/25 ∧
    (adjustStart 0 (Seg.mk 0 (1/10)) (Seg.mk (33/500) (1/5))).2.1.stop = 2/25 ∧
    ((1/10 : ℚ) + 33/500) / 2 ≠ 2/25 := by
  norm_num [adjustStart, round2, roundHalfEven, Int.fract]


theorem ChainFloor.anti {d pe pe' : ℚ} {l : List Seg}
    (h : ChainFloor d pe l) (hle : pe' ≤ pe) : ChainFloor d pe' l := by
  cases l with
  | nil => trivial
  | cons s rest => exact ⟨le_trans hle h.1, h.2.1, h.2.2⟩


theorem adjustStart_false {d : ℚ} {p seg : Seg}
    (h : (adjustStart d p seg).1 = false) :
    (adjustStart d p seg).2.1 = p ∧ (adjustStart d p seg).2.2.stop = seg.stop ∧
      p.stop ≤ (adjustStart d p seg).2.2.start := by
  by_cases h1 : seg.start < p.stop
  · by_cases h2 : round2 ((p.stop + seg.start) / 2) < p.start + d
    · simp [adjustStart, h1, h2]
    · exfalso
      simp [adjustStart, h1, h2] at h
  · simp [adjustStart, h1]
    exact le_of_not_lt h1


theorem adjustEnd_start (d : ℚ) (s : Seg) : (adjustEnd d s).start = s.start := by
  unfold adjustEnd; split_ifs <;> rfl


theorem adjustEnd_floor (d : ℚ) (s : Seg) :
    (adjustEnd d s).start + d ≤ (adjustEnd d s).stop := by
  unfold adjustEnd
  split_ifs with h1
  · simp
  · exact le_of_lt (by simpa using not_le.mp h1)


theorem adjustEnd_id {d : ℚ} {s : Seg} (h : s.start + d ≤ s.stop) :
    adjustEnd d s = s := by
  unfold adjustEnd
  split_ifs with h1
  · have : s.stop = s.start + d := le_antisymm h1 h
    cases s; simp_all
  · rfl


theorem onePassAux_false_chain {d : ℚ} {rest : List Seg} :
    ∀ {p : Seg}, p.start + d ≤ p.stop → (onePassAux d p rest).1 = false →
      ChainFloor d p.start (onePassAux d p rest).2 := by
  induction rest with
  | nil => intro p hp _; exact ⟨le_refl _, hp, trivial⟩
  | cons seg rest' ih =>
    intro p hp h
    rw [onePassAux] at h ⊢
    simp only [Bool.or_eq_false_iff] at h
    obtain ⟨hfl, hrec⟩ := h
    obtain ⟨hp', hstop, hle⟩ := adjustStart_false hfl
    set seg2 := adjustEnd d (adjustStart d p seg).2.2 with hseg2
    have hfloor2 : seg2.start + d ≤ seg2.stop := adjustEnd_floor d _
    have hchain := ih hfloor2 hrec
    have hstart2 : p.stop ≤ seg2.start := by
      rw [hseg2, adjustEnd_start]; exact hle
    rw [hp']
    exact ⟨le_refl _, hp, (hchain.anti hstart2)⟩


theorem onePass_false_chain {d : ℚ} {segs out : List Seg}
    (h : onePass d segs = some (false, out)) : ChainFloor d 0 out := by
  cases segs with
  | nil =>
    simp only [onePass, Option.some.injEq, Prod.mk.injEq] at h
    rw [← h.2]; trivial
  | cons seg rest =>
    rw [onePass] at h
    split_ifs at h with hneg
    simp only [Option.some.injEq] at h
    have h1 : (onePassAux d (adjustEnd d seg) rest).1 = false := by
      rw [h]
    have h2 : (onePassAux d (adjustEnd d seg) rest).2 = out := by
      rw [h]
    have hchain := onePassAux_false_chain (adjustEnd_floor d seg) h1
    rw [h2] at hchain
    refine hchain.anti ?_
    rw [adjustEnd_start]
    exact le_of_not_lt hneg


theorem finalCheck_good {k : ℤ} {d : ℚ} (hd : d = (k : ℚ) / 50) :
    ∀ {segs : List Seg} {pe q : ℚ} {out : List Seg}, ChainFloor d pe segs →
      finalCheckAux q segs = some out → GoodOut d q out := by
  intro segs
  induction segs with
  | nil =>
    intro pe q out _ h
    simp only [finalCheckAux, Option.some.injEq] at h
    rw [← h]; trivial
  | cons seg rest ih =>
    intro pe q out hc h
    obtain ⟨hc1, hc2, hc3⟩ := hc
    simp only [finalCheckAux] at h
    split_ifs at h with hcond
    rcases hrec : finalCheckAux (round2 seg.stop) rest with _ | out'
    · rw [hrec] at h; exact absurd h (by simp)
    · rw [hrec] at h
      simp only [Option.some.injEq] at h
      subst h
      have hfloor : round2 seg.start + d ≤ round2 seg.stop := by
        have h1 : round2 (seg.start + d) ≤ round2 seg.stop := round2_mono hc2
        rw [hd, round2_add_even_grid] at h1
        rw [hd]
        exact h1
      exact ⟨hcond.1, hcond.2, hfloor, round2_is_grid _, round2_is_grid _,
        ih hc3 hrec⟩


theorem onePassAux_id {d : ℚ} {rest : List Seg} :
    ∀ {p : Seg}, p.start + d ≤ p.stop → GoodOut d p.stop rest →
      onePassAux d p rest = (false, p :: rest) := by
  induction rest with
  | nil => intro p _ _; rfl
  | cons seg rest' ih =>
    intro p hp hg
    obtain ⟨hg1, hg2, hg3, _, _, hg6⟩ := hg
    have has : adjustStart d p seg = (false, p, seg) := by
      unfold adjustStart
      rw [if_neg (not_lt.mpr hg1)]
    rw [onePassAux, has]
    have hae : adjustEnd d seg = seg := adjustEnd_id hg3
    simp only [hae]
    rw [ih hg3 hg6]
    rfl


theorem onePass_id {d : ℚ} {r : List Seg} (hg : GoodOut d 0 r) :
    onePass d r = some (false, r) := by
  cases r with
  | nil => rfl
  | cons seg rest =>
    obtain ⟨hg1, hg2, hg3, _, _, hg6⟩ := hg
    rw [onePass, if_neg (not_lt.mpr hg1), adjustEnd_id hg3, onePassAux_id hg3 hg6]


theorem finalCheck_id {d : ℚ} :
    ∀ {r : List Seg} {pe : ℚ}, GoodOut d pe r → finalCheckAux pe r = some r := by
  intro r
  induction r with
  | nil => intro pe _; rfl
  | cons seg rest ih =>
    intro pe hg
    obtain ⟨hg1, hg2, hg3, ⟨n, hn⟩, ⟨m, hm⟩, hg6⟩ := hg
    have hs : round2 seg.start = seg.start := by rw [hn, round2_grid]
    have he : round2 seg.stop = seg.stop := by rw [hm, round2_grid]
    simp only [finalCheckAux, hs, he]
    rw [if_pos ⟨hg1, hg2⟩, ih hg6]

/-- C3 (amended): Timeline Repair is idempotent whenever the minimum
duration is an integer multiple of `0.02` seconds (in particular for the
default `0.02` and for `0`): a second run reproduces the repaired list. -/
theorem timeline_repair_idempotent {f : ℕ} (g : ℕ) {segs r : List Seg}
    {k : ℤ} {d : ℚ} (hd : d = (k : ℚ) / 50)
    (h : ensure_increasing_positions f segs d = some r) :
    ensure_increasing_positions (g + 1) r d = some r := by
  obtain ⟨mid, out, hop, hfc⟩ := ensure_some_exists h
  have hchain := onePass_false_chain hop
  have hgood := finalCheck_good hd hchain hfc
  rw [ensure_increasing_positions, onePass_id hgood]
  exact finalCheck_id hgood

/-- Witness for C3 (amended) at a concrete input. -/
theorem timeline_repair_idempotent_witness :
    ensure_increasing_positions 1 [Seg.mk 0 1] 0 = some [Seg.mk 0 1] :=
  timeline_repair_idempotent (f := 1) 0 (k := 0) (by norm_num)
    eval_ensure_simple

/-- Counterexample to C3 as stated: for minimum duration `0.027` the
repaired list `[0.02, 0.04]` is not a fixed point — a second run yields
`[0.02, 0.05]`. -/
theorem timeline_repair_not_idempotent :
    ensure_increasing_positions 10 [Seg.mk (31/2000) (1/50)] (27/1000) =
      some [Seg.mk (1/50) (1/25)] ∧
    ensure_increasing_positions 10 [Seg.mk (1/50) (1/25)] (27/1000) =
      some [Seg.mk (1/50) (1/20)] ∧
    Seg.mk (1/50) (1/20) ≠ Seg.mk (1/50) (1/25) := by
  refine ⟨?_, ?_, ?_⟩ <;>
    norm_num [ensure_increasing_positions, onePass, onePassAux, adjustStart,
      adjustEnd, finalCheckAux, round2, roundHalfEven, Int.fract, Seg.mk.injEq]

/-- `perform_word_alignment` cannot take its empty return (line 1064)
when the end-timestamp token of line 1053 is strictly after the start:
the empty return needs `end_token == start_token`. -/
theorem control_ne_empty (tb : ℤ) (refine : ℕ) (toks : List ℤ) (u : Bool)
    (h : startTokOf tb toks < endTok0Of tb toks) :
    perform_word_alignment_control tb refine toks u ≠ AlignOutcome.empty := by
  unfold perform_word_alignment_control
  split_ifs with h1 h2 h3 h4 h5
  · exact fun hx => AlignOutcome.noConfusion hx
  · exact fun hx => AlignOutcome.noConfusion hx
  · exfalso
    obtain ⟨h3a, _⟩ := h3
    rw [endTokOf] at h3a
    simp only [NFrames] at h3a
    split_ifs at h3a with h6 <;> omega
  · exact fun hx => AlignOutcome.noConfusion hx
  · exact fun hx => AlignOutcome.noConfusion hx
  · exact fun hx => AlignOutcome.noConfusion hx

/-- The in-place `tokens[-1] = new_end_token` keeps the head of a list of
length at least two. -/
theorem headD_dropLast_concat {l : List ℤ} (h : 2 ≤ l.length) (x d : ℤ) :
    (l.dropLast ++ [x]).headD d = l.headD d := by
  match l, h with
  | a :: b :: r, _ => rfl

/-- C4 (amended): a chunk with zero usable inter-timestamp tokens (a
single token left after the leading timestamp) yields an empty word list
and raises nothing; a chunk whose end-timestamp token equals or precedes
its start-timestamp token does NOT yield an empty word list — its end
token is re-derived from the last step's log-probabilities as a token
strictly after the start (lines 410-420) and the chunk is aligned on the
repaired token list, on which the empty return of `perform_word_alignment`
is unreachable. -/
theorem alignment_degeneracy (tb : ℤ) (refine : ℕ) (amx : ℕ) (tokens : List ℤ)
    (u : Bool) :
    (tokens.length = 1 → align_last_segment_words tb refine amx tokens u = .empty) ∧
    (2 ≤ tokens.length → tb ≤ tokens.getLastD 0 → tb ≤ tokens.headD 0 →
      tokens.getLastD 0 ≤ tokens.headD 0 →
      align_last_segment_words tb refine amx tokens u =
        perform_word_alignment_control tb refine
          (tokens.dropLast ++ [tokens.headD 0 + 1 + (amx : ℤ)]) u ∧
      perform_word_alignment_control tb refine
        (tokens.dropLast ++ [tokens.headD 0 + 1 + (amx : ℤ)]) u ≠ .empty) := by
  have hlen : ∀ (l : List ℤ) (x : ℤ), l.length ≠ 0 →
      (l.dropLast ++ [x]).length = l.length := by
    intro l x hl
    rw [List.length_append, List.length_dropLast]
    simp only [List.length_singleton]
    omega
  constructor
  · intro h1
    obtain ⟨t, rfl⟩ := List.length_eq_one.mp h1
    have hgl : ([t] : List ℤ).getLastD 0 = t := rfl
    have hhd : ([t] : List ℤ).headD 0 = t := rfl
    rw [align_last_segment_words, hgl, hhd]
    rw [if_neg (by simp)]
    rw [if_neg (by rintro ⟨ha, hb⟩; omega)]
    by_cases hc : tb ≤ t ∧ t ≤ t
    · rw [if_pos hc, if_pos (by simp)]
    · rw [if_neg hc, if_pos (by simp)]
  · intro h2 hE hS hLe
    have haux : align_last_segment_words tb refine amx tokens u =
        perform_word_alignment_control tb refine
          (tokens.dropLast ++ [tokens.headD 0 + 1 + (amx : ℤ)]) u := by
      rw [align_last_segment_words]
      rw [if_neg (by omega)]
      rw [if_neg (by rintro ⟨_, hb⟩; omega)]
      rw [if_pos ⟨hE, hLe⟩]
      rw [if_neg (by rw [hlen tokens _ (by omega)]; omega)]
    refine ⟨haux, ?_⟩
    apply control_ne_empty
    rw [startTokOf, endTok0Of, headD_dropLast_concat h2, List.getLastD_concat]
    omega

/-- Witness for C4 (amended) at concrete inputs: a lone timestamp token
(zero usable tokens) yields the empty word list, and an inverted pair of
timestamps around one text token is repaired and aligned. -/
theorem alignment_degeneracy_witness :
    align_last_segment_words 50000 0 10 [(50004 : ℤ)] false = .empty ∧
    (align_last_segment_words 50000 0 10 [(50005 : ℤ), 7, 50003] false =
      perform_word_alignment_control 50000 0
        (([(50005 : ℤ), 7, 50003] : List ℤ).dropLast ++
          [([(50005 : ℤ), 7, 50003] : List ℤ).headD 0 + 1 + ((10 : ℕ) : ℤ)]) false ∧
     perform_word_alignment_control 50000 0
        (([(50005 : ℤ), 7, 50003] : List ℤ).dropLast ++
          [([(50005 : ℤ), 7, 50003] : List ℤ).headD 0 + 1 + ((10 : ℕ) : ℤ)]) false ≠
       .empty) := by
  constructor
  · exact (alignment_degeneracy 50000 0 10 [(50004 : ℤ)] false).1 (by decide)
  · exact (alignment_degeneracy 50000 0 10 [(50005 : ℤ), 7, 50003] false).2
      (by decide) (by decide) (by decide) (by decide)

/-- Counterexample to C4 as stated: a chunk whose end timestamp precedes
its start timestamp (here start token 50005, end token 50003, one text
token in between) does not yield an empty word list — the end token is
re-derived (lines 410-420; here the argmax lands 10 ids past the forced
minimum) and the chunk proceeds to full alignment with window `[5, 16)`.
An equal pair of bounding timestamps is likewise repaired and aligned. -/
theorem alignment_degeneracy_counterexample :
    align_last_segment_words 50000 0 10 [(50005 : ℤ), 7, 50003] false =
      .proceed 5 16 false ∧
    align_last_segment_words 50000 0 10 [(50004 : ℤ), 7, 50004] false =
      .proceed 4 15 false ∧
    AlignOutcome.proceed 5 16 false ≠ .empty ∧
    AlignOutcome.proceed 4 15 false ≠ .empty := by
  refine ⟨by decide, by decide, by decide, by decide⟩

/-- C5: with strictly more tokens than frames in the (margin-adjusted)
window, alignment retries on the first `num_frames - 1` tokens plus the
final boundary token, with the unfinished-decoding mark forced on; and a
pass entered with the mark set can only complete with the mark set. -/
theorem token_overflow_retry {tb : ℤ} {refine : ℕ} {tokens : List ℤ} {u : Bool}
    (h1 : 1 < tokens.length) (h2 : 0 ≤ startTokOf tb tokens)
    (h3 : ¬(endTokOf tb tokens = startTokOf tb tokens ∧ refine = 0))
    (h4 : winStart tb refine tokens < winEnd tb refine tokens)
    (h5 : (winEnd tb refine tokens - winStart tb refine tokens : ℤ) < tokens.length) :
    perform_word_alignment_control tb refine tokens u =
      .retry (tokens.take
          (winEnd tb refine tokens - winStart tb refine tokens - 1).toNat
        ++ [tokens.getLastD 0]) true ∧
    ∀ (toks2 : List ℤ) (s e : ℤ) (u2 : Bool),
      perform_word_alignment_control tb refine toks2 true = .proceed s e u2 →
      u2 = true := by
  constructor
  · rw [perform_word_alignment_control, if_neg (not_le.mpr h1),
      if_neg (not_lt.mpr h2), if_neg h3, if_neg (not_le.mpr h4), if_pos h5]
  · intro toks2 s e u2 h
    rw [perform_word_alignment_control] at h
    split_ifs at h
    exact ((AlignOutcome.proceed.injEq _ _ _ _ _ _).mp h).2.2.symm

/-- Witness for C5 at a concrete chunk: 7 tokens in a 3-frame window. -/
theorem token_overflow_retry_witness :
    perform_word_alignment_control 100 0 [(100 : ℤ), 1, 2, 3, 4, 5, 103] false =
      .retry [(100 : ℤ), 1, 103] true := by
  have h := (@token_overflow_retry 100 0 [(100 : ℤ), 1, 2, 3, 4, 5, 103] false
    (by decide) (by decide) (by decide) (by decide) (by decide)).1
  rw [h]
  decide

/-- C8: when a finished chunk is filtered out (no-speech probability above
the threshold, average log-probability not above the log-probability
threshold), the word-segment list is truncated back to the recorded index,
the completed entries of the segment-token list likewise, the chunk-start
counter drops by exactly the chunk's segment count, and the segments of
earlier chunks are untouched. -/
theorem chunk_skip_rewind {α : Type} (st : FlushState α) (iStart : ℕ)
    (nsp thr alp lpt : ℚ) (h1 : nsp > thr) (h2 : ¬alp > lpt) :
    (may_flush_filter st iStart nsp (some thr) alp (some lpt)).timestampedWordSegments
        = st.timestampedWordSegments.take iStart ∧
    (may_flush_filter st iStart nsp (some thr) alp (some lpt)).segmentTokens.dropLast
        = st.segmentTokens.take iStart ∧
    (may_flush_filter st iStart nsp (some thr) alp (some lpt)).indexBegin
        = st.indexBegin - ((st.segmentTokens.length : ℤ) - 1 - iStart) ∧
    ∀ j < iStart,
      (may_flush_filter st iStart nsp (some thr) alp
          (some lpt)).timestampedWordSegments.get? j
        = st.timestampedWordSegments.get? j := by
  have hskip : shouldSkipOf nsp (some thr) alp (some lpt) = true := by
    simp [shouldSkipOf, h1, h2]
  refine ⟨?_, ?_, ?_, ?_⟩ <;>
    simp only [may_flush_filter, hskip, if_pos, skip_chunk]
  · exact List.dropLast_concat
  · intro j hj
    simp only [List.get?_eq_getElem?]
    exact List.getElem?_take_of_lt hj

/-- Witness for C8 at a concrete state (the spec's scenario: no-speech
probability 0.9 > 0.6 and average log-probability below -1). -/
theorem chunk_skip_rewind_witness :
    (may_flush_filter (FlushState.mk (α := ℕ) [[1], [2], [3]] [10, 20] 5) 1
        (9/10) (some (6/10)) (-2) (some (-1))).timestampedWordSegments = [10] ∧
    (may_flush_filter (FlushState.mk (α := ℕ) [[1], [2], [3]] [10, 20] 5) 1
        (9/10) (some (6/10)) (-2) (some (-1))).segmentTokens.dropLast = [[1]] ∧
    (may_flush_filter (FlushState.mk (α := ℕ) [[1], [2], [3]] [10, 20] 5) 1
        (9/10) (some (6/10)) (-2) (some (-1))).indexBegin = 4 := by
  obtain ⟨ha, hb, hc, _⟩ := chunk_skip_rewind
    (FlushState.mk (α := ℕ) [[1], [2], [3]] [10, 20] 5) 1
    (9/10) (6/10) (-2) (-1) (by norm_num) (by norm_num)
  refine ⟨?_, ?_, ?_⟩
  · rw [ha]; rfl
  · rw [hb]; rfl
  · rw [hc]; norm_num

/-- C10: no word returned by `perform_word_alignment` has a text starting
with `"<|"`: timestamp-marker and special tokens are never emitted. -/
theorem no_special_token_words (refine : ℕ) (unfinished : Bool) (startTime : ℚ)
    (words : List String) (wordTokens : List (List String))
    (wordTokensIndices : List (List ℤ)) (beginTimes endTimes : List ℚ) :
    ∀ w ∈ finalize_words refine unfinished startTime words wordTokens
        wordTokensIndices beginTimes endTimes,
      strStartsWith w.text "<|" = false := by
  intro w hw
  simp only [finalize_words, List.mem_filterMap] at hw
  obtain ⟨x, _, hsome⟩ := hw
  by_cases h : strStartsWith x.1.1.1.1 "<|" = true
  · rw [if_pos h] at hsome
    exact absurd hsome (by simp)
  · rw [if_neg h] at hsome
    have hw2 : w.text = x.1.1.1.1 := by
      rw [← (Option.some.injEq _ _).mp hsome]
    rw [hw2]
    simpa using h


theorem offsetOf_cons_zero (t : List String) (r : List (List String)) :
    offsetOf (t :: r) 0 = 0 := rfl


theorem offsetOf_cons_succ (t : List String) (r : List (List String)) (j : ℕ) :
    offsetOf (t :: r) (j + 1) = t.length + offsetOf r j := by
  simp [offsetOf, List.take_succ_cons]


theorem confLoop_spec {ip : Bool} {lps : List ℝ} :
    ∀ {wt : List (List String)} {iStart : ℕ} {cs : List (Option ℝ)} {np : List ℝ},
      confLoop ip lps iStart wt = some (cs, np) →
      cs.length = wt.length ∧
      (∀ i < wt.length, cs.getD i none = confidenceOpt
        ((lps.drop (iStart + offsetOf wt i)).take
          (if ip then (wt.getD i []).length else (trimPunct (wt.getD i [])).length))) ∧
      np = ((List.range wt.length).map (fun i =>
        (lps.drop (iStart + offsetOf wt i)).take
          (if ip then (wt.getD i []).length
            else (trimPunct (wt.getD i [])).length))).flatten := by
  intro wt
  induction wt with
  | nil =>
    intro iStart cs np h
    simp only [confLoop, Option.some.injEq, Prod.mk.injEq] at h
    obtain ⟨h1, h2⟩ := h
    subst h1; subst h2
    refine ⟨rfl, ?_, by simp⟩
    intro i hi
    simp at hi
  | cons tokens rest ih =>
    intro iStart cs np h
    rw [confLoop] at h
    by_cases hlen : lps.length < iStart + tokens.length
    · rw [if_pos hlen] at h
      exact absurd h (by simp)
    · rw [if_neg hlen] at h
      rcases hrec : confLoop ip lps (iStart + tokens.length) rest with _ | ⟨cs', np'⟩
      · rw [hrec] at h
        exact absurd h (by simp)
      · rw [hrec] at h
        simp only [Option.some.injEq, Prod.mk.injEq] at h
        obtain ⟨h1, h2⟩ := h
        subst h1; subst h2
        obtain ⟨ihl, ihw, ihn⟩ := ih hrec
        refine ⟨by simpa using ihl, ?_, ?_⟩
        · intro i hi
          match i with
          | 0 =>
            simp only [List.getD_cons_zero, offsetOf_cons_zero, Nat.add_zero]
          | j + 1 =>
            have hj : j < rest.length := by simpa using hi
            simp only [List.getD_cons_succ, offsetOf_cons_succ]
            rw [← Nat.add_assoc]
            exact ihw j hj
        · rw [List.length_cons, List.range_succ_eq_map, ihn]
          simp only [List.map_cons, List.flatten_cons, List.getD_cons_zero,
            offsetOf_cons_zero, Nat.add_zero, Nat.add_assoc]
          congr 2
          rw [List.map_map]
          apply List.map_congr_left
          intro j _
          simp only [Function.comp_apply, List.getD_cons_succ,
            offsetOf_cons_succ, Nat.add_assoc]

/-- C6 (amended): each word's confidence is the rounded exponential of the
mean log-probability over the word's retained tokens (trailing punctuation
excluded when the flag is off), and the segment confidence is the same
formula over the whole logprob list when punctuation is included, and over
the concatenation of the retained per-word slices otherwise. -/
theorem confidence_formula {ip : Bool} {wt : List (List String)} {lps : List ℝ}
    {cs : List (Option ℝ)} {sc : Option ℝ}
    (h : compute_confidences ip wt lps = some (cs, sc)) :
    cs.length = wt.length ∧
    (∀ i < wt.length, cs.getD i none = confidenceOpt (wordSelection ip wt lps i)) ∧
    sc = (if ip then confidenceOpt lps else confidenceOpt (retainedConcat ip wt lps)) := by
  rw [compute_confidences] at h
  rcases hloop : confLoop ip lps 0 wt with _ | ⟨cs', np'⟩
  · rw [hloop] at h
    exact absurd h (by simp)
  · rw [hloop] at h
    simp only [Option.some.injEq, Prod.mk.injEq] at h
    obtain ⟨h1, h2⟩ := h
    subst h1; subst h2
    obtain ⟨hl, hw, hn⟩ := confLoop_spec hloop
    simp only [Nat.zero_add] at hw hn
    refine ⟨hl, ?_, ?_⟩
    · intro i hi
      rw [hw i hi]
      simp only [wordSelection]
    · rw [hn]
      have hmap : List.map (fun i =>
          List.take (if ip = true then (wt.getD i []).length
            else (trimPunct (wt.getD i [])).length) (List.drop (offsetOf wt i) lps))
          (List.range wt.length)
          = List.map (wordSelection ip wt lps) (List.range wt.length) := by
        apply List.map_congr_left
        intro j _
        simp [wordSelection]
      unfold retainedConcat
      rw [hmap]

/-- Witness for C6 (amended) at a concrete segment. -/
theorem confidence_formula_witness :
    [confidenceOpt [(0 : ℝ)]].length = [["a"]].length ∧
    (∀ i < [["a"]].length,
      [confidenceOpt [(0 : ℝ)]].getD i none =
        confidenceOpt (wordSelection true [["a"]] [(0 : ℝ)] i)) ∧
    confidenceOpt [(0 : ℝ)] =
      (if true then confidenceOpt [(0 : ℝ)]
        else confidenceOpt (retainedConcat true [["a"]] [(0 : ℝ)])) :=
  @confidence_formula true [["a"]] [(0 : ℝ)]
    [confidenceOpt [(0 : ℝ)]] (confidenceOpt [(0 : ℝ)]) rfl

/-- Counterexample to C6 as stated: with
`include_punctuation_in_confidence=False`, the segment confidence is not
taken over all tokens of the segment.  For one word `["a", ","]` with
log-probabilities `[0, -20]`, the code yields segment confidence
`exp(0) = 1`, while the exponential of the mean over all tokens is
`exp(-10)`, which rounds to `0`. -/
theorem segment_confidence_counterexample :
    compute_confidences false [["a", ","]] [(0 : ℝ), -20] =
      some ([some (confidence [(0 : ℝ)])], some (confidence [(0 : ℝ)])) ∧
    confidence [(0 : ℝ)] = 1 ∧
    round3 (Real.exp (mean [(0 : ℝ), -20])) = 0 ∧
    (1 : ℝ) ≠ 0 := by
  refine ⟨rfl, ?_, ?_, by norm_num⟩
  · have hm : mean [(0 : ℝ)] = 0 := by
      simp [mean]
    rw [confidence, hm, Real.exp_zero, round3]
    have h1 : (1000 : ℝ) * 1 = ((1000 : ℤ) : ℝ) := by norm_num
    rw [h1, roundHalfEven_intCast]
    norm_num
  · have hm : mean [(0 : ℝ), -20] = -10 := by
      norm_num [mean]
    rw [hm]
    have hexp10 : (2000 : ℝ) < Real.exp 10 := by
      have h1 : Real.exp 10 = Real.exp 1 ^ 10 := by
        rw [show (10 : ℝ) = ((10 : ℕ) : ℝ) * 1 by norm_num, Real.exp_nat_mul]
      have h2 : (2.5 : ℝ) ^ 10 ≤ Real.exp 1 ^ 10 := by
        apply pow_le_pow_left₀ (by norm_num)
        linarith [Real.exp_one_gt_d9]
      rw [h1]
      calc (2000 : ℝ) < 2.5 ^ 10 := by norm_num
      _ ≤ Real.exp 1 ^ 10 := h2
    have hlt : Real.exp (-10) < 1 / 2000 := by
      rw [Real.exp_neg]
      have h2000 : (0 : ℝ) < 2000 := by norm_num
      rw [inv_lt_iff_one_lt_mul₀ (Real.exp_pos 10)]
      calc (1 : ℝ) < Real.exp 10 / 2000 := by
            rw [lt_div_iff₀ h2000]; linarith
      _ = 1 / 2000 * Real.exp 10 := by ring
    have hpos : 0 < Real.exp (-10) := Real.exp_pos _
    have hy0 : (0 : ℝ) ≤ 1000 * Real.exp (-10) := by positivity
    have hy1 : 1000 * Real.exp (-10) < 1 / 2 := by
      nlinarith
    have hfl : ⌊(1000 : ℝ) * Real.exp (-10)⌋ = 0 := by
      apply Int.floor_eq_zero_iff.mpr
      constructor
      · exact hy0
      · linarith
    rw [round3]
    have hfr : Int.fract ((1000 : ℝ) * Real.exp (-10)) < 1 / 2 := by
      rw [Int.fract, hfl]
      push_cast
      linarith
    rw [roundHalfEven, if_pos hfr, hfl]
    norm_num

/-- C7: the failing input.  A disfluency marker word carries an empty
token list (line 1252), so its log-probability slice is empty and its
confidence is `torch.mean`-of-empty, i.e. NaN (`none` here) — outside
`[0, 1]`.  Ordinary words still get a well-defined confidence. -/
theorem disfluency_marker_confidence_undefined :
    compute_confidences false [["hi"], []] [(-1 : ℝ)] =
      some ([some (confidence [(-1 : ℝ)]), none],
        some (confidence [(-1 : ℝ)])) := rfl


theorem logSoftmax_nonpos {l : List ℝ} {x : ℝ} (hx : x ∈ logSoftmax l) : x ≤ 0 := by
  simp only [logSoftmax, List.mem_map] at hx
  obtain ⟨a, ha, rfl⟩ := hx
  have hle : Real.exp a ≤ (l.map Real.exp).sum := by
    refine List.single_le_sum ?_ _ (List.mem_map_of_mem Real.exp ha)
    intro x hx
    obtain ⟨b, _, rfl⟩ := List.mem_map.mp hx
    exact (Real.exp_pos b).le
  have hpos : 0 < (l.map Real.exp).sum :=
    lt_of_lt_of_le (Real.exp_pos a) hle
  have := Real.log_le_log (Real.exp_pos a) hle
  rw [Real.log_exp] at this
  linarith


theorem roundHalfEven_nonneg {x : ℝ} (h : 0 ≤ x) : 0 ≤ roundHalfEven x := by
  have h1 : (0 : ℤ) ≤ ⌊x⌋ := Int.floor_nonneg.mpr h
  have h2 := floor_le_roundHalfEven x
  omega


theorem roundHalfEven_le_of_le {x : ℝ} {n : ℤ} (h : x ≤ n) : roundHalfEven x ≤ n := by
  have h1 : ⌊x⌋ ≤ n := by
    have := Int.floor_le_floor h
    rwa [Int.floor_intCast] at this
  rcases eq_or_lt_of_le h1 with heq | hlt
  · have hxe : x = n := by
      have := Int.floor_le x
      rw [heq] at this
      exact le_antisymm h this
    subst hxe
    rw [show ((n : ℝ)) = ((n : ℤ) : ℝ) by norm_num, roundHalfEven_intCast]
  · have := roundHalfEven_le_floor_add_one x
    omega

/-- Any confidence computed from a nonempty slice of nonpositive
log-probabilities lies in `[0, 1]`. -/
theorem confidence_unit_interval {l : List ℝ} (hne : l ≠ [])
    (hle : ∀ x ∈ l, x ≤ 0) : 0 ≤ confidence l ∧ confidence l ≤ 1 := by
  have hsum : l.sum ≤ 0 := by
    induction l with
    | nil => simp
    | cons a t iht =>
      simp only [List.sum_cons]
      have ha := hle a (List.mem_cons_self a t)
      rcases t with _ | ⟨b, t'⟩
      · simpa using ha
      · have := iht (by simp) (fun x hx => hle x (List.mem_cons_of_mem a hx))
        linarith
  have hmean : mean l ≤ 0 := by
    rw [mean]
    apply div_nonpos_iff.mpr
    right
    exact ⟨hsum, by positivity⟩
  have hexp1 : Real.exp (mean l) ≤ 1 := Real.exp_le_one_iff.mpr hmean
  have hexp0 : 0 < Real.exp (mean l) := Real.exp_pos _
  rw [confidence, round3]
  constructor
  · have := roundHalfEven_nonneg (x := 1000 * Real.exp (mean l)) (by positivity)
    have hcast : (0 : ℝ) ≤ (roundHalfEven (1000 * Real.exp (mean l)) : ℝ) := by
      exact_mod_cast this
    linarith
  · have h1 : (1000 : ℝ) * Real.exp (mean l) ≤ ((1000 : ℤ) : ℝ) := by
      push_cast
      nlinarith
    have := roundHalfEven_le_of_le h1
    have hcast : (roundHalfEven (1000 * Real.exp (mean l)) : ℝ) ≤ 1000 := by
      exact_mod_cast this
    linarith


theorem getD_of_drop {α : Type} :
    ∀ (i : ℕ) (l : List α) {x : α} {xs : List α},
      l.drop i = x :: xs → ∀ d : α, l.getD i d = x := by
  intro i
  induction i with
  | zero =>
    intro l x xs h d
    simp only [List.drop_zero] at h
    rw [h, List.getD_cons_zero]
  | succ n ih =>
    intro l x xs h d
    match l with
    | [] => simp at h
    | a :: l' =>
      rw [List.drop_succ_cons] at h
      rw [List.getD_cons_succ]
      exact ih l' h d


theorem drop_succ_of_drop {α : Type} :
    ∀ (i : ℕ) (l : List α) {x : α} {xs : List α},
      l.drop i = x :: xs → l.drop (i + 1) = xs := by
  intro i
  induction i with
  | zero =>
    intro l x xs h
    simp only [List.drop_zero] at h
    rw [h]
    rfl
  | succ n ih =>
    intro l x xs h
    match l with
    | [] => simp at h
    | a :: l' =>
      rw [List.drop_succ_cons] at h
      rw [show (a :: l').drop (n + 1 + 1) = l'.drop (n + 1) from rfl]
      exact ih l' h


theorem mem_upsertD {k : ℕ} {v : ℕ × ℕ} :
    ∀ {l : List (ℕ × ℕ × ℕ)} {x : ℕ × ℕ × ℕ},
      x ∈ upsertD k v l → x = (k, v.1, v.2) ∨ x ∈ l := by
  intro l
  induction l with
  | nil =>
    intro x hx
    simp only [upsertD, List.mem_singleton] at hx
    exact Or.inl hx
  | cons p rest ih =>
    intro x hx
    rw [show upsertD k v (p :: rest) =
      (if p.1 = k then (k, v.1, v.2) :: rest else p :: upsertD k v rest) from by
        cases p; rfl] at hx
    split_ifs at hx with hk
    · rcases List.mem_cons.mp hx with h1 | h2
      · exact Or.inl h1
      · exact Or.inr (List.mem_cons_of_mem _ h2)
    · rcases List.mem_cons.mp hx with h1 | h2
      · exact Or.inr (h1 ▸ List.mem_cons_self _ _)
      · rcases ih h2 with h3 | h4
        · exact Or.inl h3
        · exact Or.inr (List.mem_cons_of_mem _ h4)


theorem lookup_mem {β : Type} {k : ℕ} {v : β} :
    ∀ {l : List (ℕ × β)}, List.lookup k l = some v → (k, v) ∈ l := by
  intro l
  induction l with
  | nil => intro h; simp [List.lookup] at h
  | cons p rest ih =>
    intro h
    obtain ⟨k', v'⟩ := p
    by_cases hk : k = k'
    · subst hk
      simp only [List.lookup, beq_self_eq_true] at h
      obtain rfl := (Option.some.injEq _ _).mp h
      exact List.mem_cons_self _ _
    · have hbeq : (k == k') = false := by simpa using hk
      simp only [List.lookup, hbeq] at h
      exact List.mem_cons_of_mem _ (ih h)


theorem scanl_boundaries_getD :
    ∀ (wt : List (List String)) (init i : ℕ), i ≤ wt.length →
      (List.scanl (fun a t => a + t.length) init wt).getD i 0 =
        init + offsetOf wt i := by
  intro wt
  induction wt with
  | nil =>
    intro init i hi
    have h0 : i = 0 := by simpa using hi
    subst h0
    simp [List.scanl, offsetOf]
  | cons t rest ih =>
    intro init i hi
    rw [List.scanl]
    match i with
    | 0 => simp [offsetOf]
    | j + 1 =>
      rw [List.getD_cons_succ, ih (init + t.length) j (by simpa using hi),
        offsetOf_cons_succ]
      omega


theorem dropLast_getD {α : Type} :
    ∀ (l : List α) (i : ℕ) (d : α), i + 1 < l.length →
      l.dropLast.getD i d = l.getD i d := by
  intro l
  induction l with
  | nil => intro i d h; simp at h
  | cons a rest ih =>
    intro i d h
    match rest with
    | [] => simp at h
    | b :: rest' =>
      rw [show (a :: b :: rest').dropLast = a :: (b :: rest').dropLast from rfl]
      match i with
      | 0 => rfl
      | j + 1 =>
        rw [List.getD_cons_succ, List.getD_cons_succ]
        exact ih j d (by simpa using h)


theorem offsetOf_dropLast (wt : List (List String)) (i : ℕ)
    (h : i ≤ wt.length - 1) : offsetOf wt.dropLast i = offsetOf wt i := by
  rw [offsetOf, offsetOf, List.dropLast_eq_take, List.take_take,
    min_eq_left h]


theorem getD_map_of_lt {α β : Type} (f : α → β) (l : List α) (i : ℕ)
    (h : i < l.length) (d0 : β) (d1 : α) :
    (l.map f).getD i d0 = f (l.getD i d1) := by
  rw [List.getD_eq_getElem?_getD, List.getD_eq_getElem?_getD,
    List.getElem?_map, List.getElem?_eq_getElem h]
  rfl


theorem detectAux_entries {peaks : ℕ → Option ℕ} {punct : ℤ → Bool}
    {tokens : List ℤ} {jumps : List ℕ} :
    ∀ {toks : List ℤ} {i : ℕ} {js : List ℕ} {dis : List (ℕ × ℕ × ℕ)},
      tokens.drop i = toks → jumps.drop i = js →
      (∀ x ∈ dis, EntrySpec peaks punct tokens jumps x) →
      ∀ x ∈ (detectAux peaks punct i toks js dis).2,
        EntrySpec peaks punct tokens jumps x := by
  intro toks
  induction toks with
  | nil =>
    intro i js dis _ _ hdis x hx
    exact hdis x (by simpa [detectAux] using hx)
  | cons tok toks' ih =>
    intro i js dis htok hjs hdis x hx
    rcases js with _ | ⟨b, _ | ⟨e, js'⟩⟩
    · exact hdis x (by simpa [detectAux] using hx)
    · exact hdis x (by simpa [detectAux] using hx)
    · have htok0 : tokens.getD i 0 = tok := getD_of_drop i tokens htok 0
      have htoks' : tokens.drop (i + 1) = toks' := drop_succ_of_drop i tokens htok
      have hb : jumps.getD i 0 = b := getD_of_drop i jumps hjs 0
      have hjs' : jumps.drop (i + 1) = e :: js' := drop_succ_of_drop i jumps hjs
      have he : jumps.getD (i + 1) 0 = e := getD_of_drop (i + 1) jumps hjs' 0
      have hilen : i < tokens.length := by
        have := congrArg List.length htok
        rw [List.length_drop] at this
        simp only [List.length_cons] at this
        omega
      rcases hp : peaks i with _ | lft
      · simp only [detectAux, hp] at hx
        exact ih htoks' hjs' hdis x hx
      · simp only [detectAux, hp] at hx
        by_cases hneq : lft + b ≠ b
        · rw [if_pos hneq] at hx
          have hdis' : ∀ y ∈ (if punct tok then upsertD (i + 1) (b, e) dis
              else upsertD i (b, lft + b) dis),
              EntrySpec peaks punct tokens jumps y := by
            intro y hy
            by_cases hpu : punct tok = true
            · rw [if_pos hpu] at hy
              rcases mem_upsertD hy with h1 | h2
              · refine ⟨i, lft, hilen, hp, ?_, Or.inr ⟨htok0 ▸ hpu, ?_⟩⟩
                · rw [hb]; exact hneq
                · rw [h1, hb, he]
              · exact hdis y h2
            · rw [if_neg hpu] at hy
              rcases mem_upsertD hy with h1 | h2
              · refine ⟨i, lft, hilen, hp, ?_,
                  Or.inl ⟨htok0 ▸ (Bool.not_eq_true _).mp hpu, ?_⟩⟩
                · rw [hb]; exact hneq
                · rw [h1, hb]
              · exact hdis y h2
          exact ih htoks' hjs' hdis' x hx
        · rw [if_neg hneq] at hx
          exact ih htoks' hjs' hdis x hx


theorem detectAux_revised {peaks : ℕ → Option ℕ} {punct : ℤ → Bool}
    {tokens : List ℤ} {jumps : List ℕ} (hlen : jumps.length = tokens.length + 1) :
    ∀ {toks : List ℤ} {i : ℕ} {js : List ℕ} {dis : List (ℕ × ℕ × ℕ)},
      tokens.drop i = toks → jumps.drop i = js →
      ∀ j, i ≤ j → j < tokens.length → ∀ lft, peaks j = some lft →
        (detectAux peaks punct i toks js dis).1.getD (j - i) 0 =
          lft + jumps.getD j 0 := by
  intro toks
  induction toks with
  | nil =>
    intro i js dis htok _ j hij hj lft _
    exfalso
    have := congrArg List.length htok
    rw [List.length_drop] at this
    simp only [List.length_nil] at this
    omega
  | cons tok toks' ih =>
    intro i js dis htok hjs j hij hj lft hp
    have hilen : i < tokens.length := by
      have := congrArg List.length htok
      rw [List.length_drop] at this
      simp only [List.length_cons] at this
      omega
    have hjslen := congrArg List.length hjs
    rw [List.length_drop] at hjslen
    rcases js with _ | ⟨b, _ | ⟨e, js'⟩⟩
    · exfalso
      simp only [List.length_nil] at hjslen
      omega
    · exfalso
      simp only [List.length_cons, List.length_nil] at hjslen
      omega
    · have htoks' : tokens.drop (i + 1) = toks' := drop_succ_of_drop i tokens htok
      have hb : jumps.getD i 0 = b := getD_of_drop i jumps hjs 0
      have hjs' : jumps.drop (i + 1) = e :: js' := drop_succ_of_drop i jumps hjs
      rcases Nat.eq_or_lt_of_le hij with rfl | hlt
      · rw [Nat.sub_self]
        simp only [detectAux, hp]
        rw [List.getD_cons_zero, hb]
      · have hji : j - i = (j - (i + 1)) + 1 := by omega
        rcases hpi : peaks i with _ | lft2 <;>
          simp only [detectAux, hpi] <;>
          rw [hji, List.getD_cons_succ] <;>
          exact ih htoks' hjs' j (by omega) hj lft hp


theorem to_be_added_aux_spec {dis : List (ℕ × ℕ × ℕ)} :
    ∀ {wts : List (List String)} {iWord iStart : ℕ} {m : ℕ × ℚ × ℚ},
      m ∈ to_be_added_aux dis iWord iStart wts →
      iWord ≤ m.1 ∧ m.1 - iWord < wts.length ∧ 0 < m.1 ∧
      ∃ b e, List.lookup (iStart + offsetOf wts (m.1 - iWord)) dis = some (b, e) ∧
        m.2.1 = (b : ℚ) * audioTimePerToken ∧
        m.2.2 = (e : ℚ) * audioTimePerToken := by
  intro wts
  induction wts with
  | nil => intro iWord iStart m hm; simp [to_be_added_aux] at hm
  | cons toks rest ih =>
    intro iWord iStart m hm
    rw [to_be_added_aux] at hm
    have hstep : m ∈ to_be_added_aux dis (iWord + 1) (iStart + toks.length) rest →
        iWord ≤ m.1 ∧ m.1 - iWord < (toks :: rest).length ∧ 0 < m.1 ∧
        ∃ b e, List.lookup (iStart + offsetOf (toks :: rest) (m.1 - iWord)) dis
            = some (b, e) ∧
          m.2.1 = (b : ℚ) * audioTimePerToken ∧
          m.2.2 = (e : ℚ) * audioTimePerToken := by
      intro hmem
      obtain ⟨h1, h2, h3, b, e, h4, h5, h6⟩ := ih hmem
      have hsub : m.1 - iWord = (m.1 - (iWord + 1)) + 1 := by omega
      refine ⟨by omega, by simp only [List.length_cons]; omega, h3, b, e, ?_, h5, h6⟩
      rw [hsub, offsetOf_cons_succ, ← Nat.add_assoc]
      exact h4
    rcases hlk : List.lookup iStart dis with _ | be
    · rw [hlk] at hm
      exact hstep hm
    · rw [hlk] at hm
      have hm2 : m ∈ (if 0 < iWord then
          (iWord, (be.1 : ℚ) * audioTimePerToken, (be.2 : ℚ) * audioTimePerToken)
            :: to_be_added_aux dis (iWord + 1) (iStart + toks.length) rest
        else to_be_added_aux dis (iWord + 1) (iStart + toks.length) rest) := hm
      by_cases hiw : 0 < iWord
      · rw [if_pos hiw] at hm2
        rcases List.mem_cons.mp hm2 with h1 | h2
        · subst h1
          refine ⟨le_refl _, by simp, hiw, be.1, be.2, ?_, rfl, rfl⟩
          rw [Nat.sub_self, offsetOf_cons_zero, Nat.add_zero]
          rw [hlk]
        · exact hstep h2
      · rw [if_neg hiw] at hm2
        exact hstep hm2

/-- An element inserted at index `n` of a list of length at least `n`
is found at index `n`. -/
theorem getD_insertIdx_self {α : Type} :
    ∀ (n : ℕ) (l : List α) (a d : α), n ≤ l.length →
      (l.insertIdx n a).getD n d = a := by
  intro n
  induction n with
  | zero =>
    intro l a d _
    rw [List.insertIdx_zero]
    rfl
  | succ k ih =>
    intro l a d h
    match l with
    | [] => simp at h
    | b :: l' =>
      rw [List.insertIdx_succ_cons, List.getD_cons_succ]
      exact ih l' a d (by simp only [List.length_cons] at h; omega)

/-- C9 (amended): every disfluency entry stems from a multi-peak token
whose revised start differs from its original start; a non-punctuation
token's entry is keyed by the token itself and spans the original-to-
revised gap, while a punctuation token's entry is keyed by the following
token and spans the punctuation token's full original extent.  Every
collected marker sits strictly after the leading timestamp word, carries
the looked-up span scaled to seconds, and — when its key carries the
original-to-revised gap of a multi-peak token — its end coincides with the
affected word's revised begin time, so it subdivides the original span.
The insertion loop processes the collected markers back to front, and
each marker is placed immediately before its word index in all five
parallel lists of the state in which the later markers already sit, the
`"[*]"` marker string landing exactly at that index. -/
theorem disfluency_marker_insertion {peaks : ℕ → Option ℕ} {punct : ℤ → Bool}
    {tokens : List ℤ} {jumps : List ℕ} {wt : List (List String)}
    (hlen : jumps.length = tokens.length + 1) :
    (∀ x ∈ (detect_disfluencies_pass peaks punct tokens jumps).2,
      EntrySpec peaks punct tokens jumps x) ∧
    (∀ m ∈ to_be_added (detect_disfluencies_pass peaks punct tokens jumps).2 wt,
      0 < m.1 ∧ m.1 < wt.dropLast.length ∧
      ∃ b e, List.lookup (offsetOf wt m.1)
          (detect_disfluencies_pass peaks punct tokens jumps).2 = some (b, e) ∧
        m.2.1 = (b : ℚ) * audioTimePerToken ∧
        m.2.2 = (e : ℚ) * audioTimePerToken ∧
        (∀ lft, peaks (offsetOf wt m.1) = some lft →
          e = lft + jumps.getD (offsetOf wt m.1) 0 →
          offsetOf wt m.1 < tokens.length →
          m.2.2 = (begin_times (detect_disfluencies_pass peaks punct tokens
            jumps).1 wt).getD m.1 0)) ∧
    ((∀ (st : WordTimes), insert_markers [] st = st) ∧
     (∀ (m : ℕ × ℚ × ℚ) (ms : List (ℕ × ℚ × ℚ)) (st : WordTimes),
       insert_markers (m :: ms) st =
         ⟨(insert_markers ms st).words.insertIdx m.1 disfluencyMark,
           (insert_markers ms st).wordTokens.insertIdx m.1 [],
           (insert_markers ms st).wordTokensIndices.insertIdx m.1 [],
           (insert_markers ms st).beginTimes.insertIdx m.1 m.2.1,
           (insert_markers ms st).endTimes.insertIdx m.1 m.2.2⟩) ∧
     (∀ (m : ℕ × ℚ × ℚ) (ms : List (ℕ × ℚ × ℚ)) (st : WordTimes),
       m.1 ≤ (insert_markers ms st).words.length →
       (insert_markers (m :: ms) st).words.getD m.1 "" = disfluencyMark)) := by
  refine ⟨?_, ?_, ?_⟩
  · intro x hx
    exact detectAux_entries rfl rfl (by intro y hy; simp at hy) x hx
  · intro m hm
    obtain ⟨_, h2, h3, b, e, h4, h5, h6⟩ := to_be_added_aux_spec hm
    rw [Nat.sub_zero] at h2 h4
    rw [Nat.zero_add] at h4
    have hddl : wt.dropLast.length = wt.length - 1 := by
      rw [List.length_dropLast]
    have hoff : offsetOf wt.dropLast m.1 = offsetOf wt m.1 :=
      offsetOf_dropLast wt m.1 (by omega)
    rw [hoff] at h4
    refine ⟨h3, h2, b, e, h4, h5, h6, ?_⟩
    intro lft hpk he hklt
    have hjs : (detect_disfluencies_pass peaks punct tokens jumps).1.getD
        (offsetOf wt m.1) 0 = lft + jumps.getD (offsetOf wt m.1) 0 := by
      have := @detectAux_revised peaks punct tokens jumps hlen
        tokens 0 jumps [] rfl rfl (offsetOf wt m.1) (Nat.zero_le _) hklt lft hpk
      rw [Nat.sub_zero] at this
      exact this
    have hm1 : m.1 < wt.length := by omega
    have hbl : (word_boundaries wt).length = wt.length + 1 := by
      rw [word_boundaries, List.length_scanl]
    have hbdl : (word_boundaries wt).dropLast.length = wt.length := by
      rw [List.length_dropLast, hbl]
      omega
    have hword : (word_boundaries wt).getD m.1 0 = offsetOf wt m.1 := by
      rw [word_boundaries, scanl_boundaries_getD wt 0 m.1 (by omega),
        Nat.zero_add]
    rw [begin_times, getD_map_of_lt _ _ _ (by omega) _ 0,
      dropLast_getD _ _ _ (by omega), hword, hjs, ← he]
    exact h6
  · refine ⟨?_, ?_, ?_⟩
    · intro st
      rfl
    · intro m ms st
      rw [insert_markers, List.reverse_cons, List.foldl_append]
      rfl
    · intro m ms st h
      have hcons : (insert_markers (m :: ms) st).words =
          (insert_markers ms st).words.insertIdx m.1 disfluencyMark := by
        rw [insert_markers, List.reverse_cons, List.foldl_append]
        rfl
      rw [hcons]
      exact getD_insertIdx_self m.1 _ _ _ h

/-- Witness for C9 (amended) at a concrete chunk: a non-punctuation token
(index 2, one word per token) with a second attention peak at offset 1;
the marker `(2, 0.2, 0.22)` spans frames 10 to 11 and its end meets the
affected word's revised begin time. -/
theorem disfluency_marker_insertion_witness :
    0 < 2 ∧ 2 < ([["t"], ["a"], ["b"], ["c"]] : List (List String)).dropLast.length ∧
    ∃ b e, List.lookup (offsetOf [["t"], ["a"], ["b"], ["c"]] 2)
        (detect_disfluencies_pass (fun i => if i = 2 then some 1 else none)
          (fun _ => false) [100, 200, 300, 400] [0, 4, 10, 12, 14]).2 = some (b, e) ∧
      ((2 : ℕ), ((10 : ℕ) : ℚ) * audioTimePerToken,
          ((11 : ℕ) : ℚ) * audioTimePerToken).2.1 = (b : ℚ) * audioTimePerToken ∧
      ((2 : ℕ), ((10 : ℕ) : ℚ) * audioTimePerToken,
          ((11 : ℕ) : ℚ) * audioTimePerToken).2.2 = (e : ℚ) * audioTimePerToken ∧
      (∀ lft, (fun i => if i = 2 then some 1 else none) (offsetOf
            [["t"], ["a"], ["b"], ["c"]] 2) = some lft →
        e = lft + ([0, 4, 10, 12, 14] : List ℕ).getD
            (offsetOf [["t"], ["a"], ["b"], ["c"]] 2) 0 →
        offsetOf [["t"], ["a"], ["b"], ["c"]] 2 < ([100, 200, 300, 400] : List ℤ).length →
        ((2 : ℕ), ((10 : ℕ) : ℚ) * audioTimePerToken,
            ((11 : ℕ) : ℚ) * audioTimePerToken).2.2 =
          (begin_times (detect_disfluencies_pass
              (fun i => if i = 2 then some 1 else none) (fun _ => false)
              [100, 200, 300, 400] [0, 4, 10, 12, 14]).1
            [["t"], ["a"], ["b"], ["c"]]).getD 2 0) := by
  have h := (@disfluency_marker_insertion
    (fun i => if i = 2 then some 1 else none) (fun _ => false)
    [100, 200, 300, 400] [0, 4, 10, 12, 14]
    [["t"], ["a"], ["b"], ["c"]] (by decide)).2.1
    ((2 : ℕ), ((10 : ℕ) : ℚ) * audioTimePerToken, ((11 : ℕ) : ℚ) * audioTimePerToken)
    (by exact List.mem_singleton.mpr rfl)
  exact h

/-- Counterexample to C9 as stated: for a punctuation token the recorded
marker spans the token's original extent `(begin, end)`, not the gap
between the original and revised start `(begin, new_begin)`.  Token 1
(punctuation) has original span frames 4-10 and revised start 7, yet the
emitted marker spans `0.08 s` to `0.20 s` (frames 4 to 10), not `0.08 s`
to `0.14 s`. -/
theorem disfluency_punct_span_counterexample :
    detect_disfluencies_pass (fun i => if i = 1 then some 3 else none)
        (fun t => decide (t = 200)) [100, 200, 300, 400] [0, 4, 10, 12, 14]
      = ([0, 7, 10, 12, 14], [(2, 4, 10)]) ∧
    to_be_added [(2, 4, 10)] [["t"], ["a"], ["b"], ["c"]]
      = [((2 : ℕ), (2 : ℚ) / 25, (1 : ℚ) / 5)] ∧
    ((1 : ℚ) / 5) ≠ (7 : ℚ) * audioTimePerToken := by
  refine ⟨by decide, ?_, by norm_num [audioTimePerToken]⟩
  show [((2 : ℕ), ((4 : ℕ) : ℚ) * audioTimePerToken,
      ((10 : ℕ) : ℚ) * audioTimePerToken)] = _
  norm_num [audioTimePerToken]

/-- Witness for C10 at a concrete chunk whose raw word list still carries
its two bounding timestamp pseudo-words. -/
theorem no_special_token_words_witness :
    strStartsWith (TimedWord.mk "hi" (round2 (1/2 + 0)) (round2 (1 + 0))
        ["hi"] [123]).text "<|" = false := by
  refine no_special_token_words 1 false 0
    ["<|0.00|>", "hi", "<|1.00|>"] [["<|0.00|>"], ["hi"], ["<|1.00|>"]]
    [[50364], [123], [50414]] [0, 1/2, 1] [1/2, 1, 1] _ ?_
  show _ ∈ finalize_words 1 false 0 ["<|0.00|>", "hi", "<|1.00|>"]
    [["<|0.00|>"], ["hi"], ["<|1.00|>"]] [[50364], [123], [50414]]
    [0, 1/2, 1] [1/2, 1, 1]
  have hev : finalize_words 1 false 0 ["<|0.00|>", "hi", "<|1.00|>"]
      [["<|0.00|>"], ["hi"], ["<|1.00|>"]] [[50364], [123], [50414]]
      [0, 1/2, 1] [1/2, 1, 1]
      = [TimedWord.mk "hi" (round2 (1/2 + 0)) (round2 (1 + 0)) ["hi"] [123]] := rfl
  rw [hev]
  exact List.mem_singleton.mpr rfl

end Transcribe
